import Mathlib

/-!
Shallow embedding of the core of `smart_file_organizer.py` (Smart File
Organizer AI): the content-addressed analysis cache, the per-file pipeline
and the batch coordinator, with the rename resolver.

Modelling conventions:
* Python `str` is Lean `String`; raw file bytes are `List Nat`.
* SHA-256 is an opaque digest function `H` passed as a parameter; the model
  computes the exact byte sequence fed to the hasher.
* `json.dumps` / `json.loads` on the analysis dictionaries are modelled by a
  concrete executable serializer `dumps` and parser `loads` over the shape of
  dictionary this program stores (string keys, values either strings or lists
  of strings, as produced by `AIAnalyzer._prepare_prompt`'s schema).  All
  parsers are fuel-based structural recursions so that every concrete value
  reduces inside the kernel.
* Exceptions are `Except String`; raising is `.error`, the message standing
  for `str(e)`.
* The thread pool of `process_batch` is modelled by sequential scheduling
  (submission order); `max_workers` and the rate-limit sleep affect timing
  and interleaving only, never which outcome a file receives.
* Wall-clock values (`time.time()`, `datetime.now().isoformat()`, `st_mtime`)
  are modelled as naturals rendered with `toString`.
-/

/-! ## Decimal rendering of the collision counter (Python `f"{counter}"`) -/

/-- Character of a single decimal digit, as in Python's `str(n)` rendering. -/
def digitCh (n : Nat) : Char := Char.ofNat (48 + n)

/-- Fuel-based decimal digit emitter; `fuel ≥ n` makes it total on `n`. -/
def decAux : Nat → Nat → List Char
  | 0, n => [digitCh n]
  | fuel + 1, n =>
    if n < 10 then [digitCh n]
    else decAux fuel (n / 10) ++ [digitCh (n % 10)]

/-- Decimal rendering of a natural number, as interpolated by `f"{counter}"`. -/
def decRepr (n : Nat) : String := String.mk (decAux n n)

/-! ## The analysis payload and its JSON serialization

`AnalysisCache` stores `json.dumps(analysis)` in the `analysis` TEXT column
and `AnalysisCache.get` replays it through `json.loads`.  The payload shape
is the analysis dictionary: string keys in insertion order, each value a
string or a list of strings (the `tags` array). -/

/-- A JSON value as stored in the analysis dictionaries of this program. -/
inductive JVal where
  | s (v : String)
  | l (vs : List String)
deriving DecidableEq

/-- The analysis dictionary: keys in insertion order. -/
abbrev Payload := List (String × JVal)

/-- Python dict lookup `d.get(k)` / `k in d` on a payload. -/
def getKey (p : Payload) (k : String) : Option JVal :=
  (p.find? (fun e => e.1 == k)).map (·.2)

/-- Python dict assignment `d[k] = v`: replace in place, else append. -/
def setKey (p : Payload) (k : String) (v : JVal) : Payload :=
  if p.any (fun e => e.1 == k) then
    p.map (fun e => if e.1 == k then (k, v) else e)
  else p ++ [(k, v)]

/-- JSON string escaping for the two structural characters. -/
def escChar (c : Char) : List Char :=
  if c = '"' ∨ c = '\\' then ['\\', c] else [c]

/-- Escape every character of a string body. -/
def escStr : List Char → List Char
  | [] => []
  | c :: cs => escChar c ++ escStr cs

/-- Emit a JSON string literal. -/
def emitStr (s : String) : List Char := '"' :: (escStr s.data ++ ['"'])

/-- Emit the remaining items of a JSON array after the first one
(`json.dumps` uses the `", "` separator). -/
def emitItemsTail : List String → List Char
  | [] => [']']
  | x :: xs => ',' :: ' ' :: (emitStr x ++ emitItemsTail xs)

/-- Emit a JSON value. -/
def emitJVal : JVal → List Char
  | .s v => emitStr v
  | .l [] => ['[', ']']
  | .l (x :: xs) => '[' :: (emitStr x ++ emitItemsTail xs)

/-- Emit the remaining entries of a JSON object after the first one. -/
def emitEntriesTail : Payload → List Char
  | [] => ['}']
  | (k, v) :: es => ',' :: ' ' :: (emitStr k ++ ':' :: ' ' :: (emitJVal v ++ emitEntriesTail es))

/-- Emit a whole JSON object. -/
def emitObj : Payload → List Char
  | [] => ['{', '}']
  | (k, v) :: es => '{' :: (emitStr k ++ ':' :: ' ' :: (emitJVal v ++ emitEntriesTail es))

/-- Model of `json.dumps(analysis)`. -/
def dumps (p : Payload) : String := String.mk (emitObj p)

/-- Parse a JSON string body up to the closing quote, undoing escapes. -/
def parseStrBody : List Char → Option (List Char × List Char)
  | [] => none
  | c :: rest =>
    if c = '"' then some ([], rest)
    else if c = '\\' then
      match rest with
      | [] => none
      | d :: rest' => (parseStrBody rest').map (fun p => (d :: p.1, p.2))
    else (parseStrBody rest).map (fun p => (c :: p.1, p.2))

/-- Parse a JSON string literal. -/
def parseStr : List Char → Option (String × List Char)
  | '"' :: rest => (parseStrBody rest).map (fun p => (String.mk p.1, p.2))
  | _ => none

/-- Parse the items of a JSON array after the first one. -/
def parseItemsTail : Nat → List Char → Option (List String × List Char)
  | _, ']' :: rest => some ([], rest)
  | fuel + 1, ',' :: ' ' :: rest =>
    match parseStr rest with
    | some (x, rest') =>
      (parseItemsTail fuel rest').map (fun p => (x :: p.1, p.2))
    | none => none
  | _, _ => none

/-- Parse a JSON value (a string or an array of strings). -/
def parseJVal (fuel : Nat) : List Char → Option (JVal × List Char)
  | '[' :: rest =>
    match rest with
    | ']' :: rest' => some (.l [], rest')
    | _ =>
      match parseStr rest with
      | some (x, rest') =>
        (parseItemsTail fuel rest').map (fun p => (.l (x :: p.1), p.2))
      | none => none
  | cs =>
    (parseStr cs).map (fun p => (.s p.1, p.2))

/-- Parse the entries of a JSON object after the first one. -/
def parseEntriesTail : Nat → List Char → Option (Payload × List Char)
  | _, '}' :: rest => some ([], rest)
  | fuel + 1, ',' :: ' ' :: rest =>
    match parseStr rest with
    | some (k, rest') =>
      match rest' with
      | ':' :: ' ' :: rest'' =>
        match parseJVal fuel rest'' with
        | some (v, rest3) =>
          (parseEntriesTail fuel rest3).map (fun p => ((k, v) :: p.1, p.2))
        | none => none
      | _ => none
    | none => none
  | _, _ => none

/-- Parse a whole JSON object. -/
def parseObj (fuel : Nat) : List Char → Option (Payload × List Char)
  | '{' :: rest =>
    match rest with
    | '}' :: rest' => some ([], rest')
    | _ =>
      match parseStr rest with
      | some (k, rest') =>
        match rest' with
        | ':' :: ' ' :: rest'' =>
          match parseJVal fuel rest'' with
          | some (v, rest3) =>
            (parseEntriesTail fuel rest3).map (fun p => ((k, v) :: p.1, p.2))
          | none => none
        | _ => none
      | none => none
  | _ => none

/-- Model of `json.loads` on a stored cache payload: the whole text must be
one JSON object with no trailing characters, else a `JSONDecodeError`. -/
def loads (s : String) : Option Payload :=
  match parseObj s.data.length s.data with
  | some (p, []) => some p
  | _ => none

/-! ## AnalysisCache (`analysis_cache` SQLite table)

A store is the list of table rows; `PRIMARY KEY (file_hash, model)` keeps at
most one row per key (maintained by the upsert).  A fresh store (after
`_init_db` on a new database file) is `[]`. -/

/-- One row of the `analysis_cache` table. -/
structure CacheRow where
  fileHash : String
  model : String
  analysis : String
  timestamp : Nat
deriving DecidableEq

/-- The backing store: the rows of the table. -/
abbrev Store := List CacheRow

/-- Point lookup by the composite primary key (`SELECT ... WHERE`). -/
def findRow (st : Store) (h m : String) : Option CacheRow :=
  st.find? (fun r => r.fileHash == h && r.model == m)

/-- Model of `AnalysisCache.get`: look the key up and replay the stored text
through `json.loads`.  The source wraps the `json.loads` call in no handler,
so a corrupt stored payload raises (`Except.error`). -/
def AnalysisCache.get (st : Store) (h m : String) : Except String (Option Payload) :=
  match findRow st h m with
  | none => .ok none
  | some r =>
    match loads r.analysis with
    | some p => .ok (some p)
    | none => .error ("JSONDecodeError: " ++ r.analysis)

/-- Model of `AnalysisCache.set`: `INSERT OR REPLACE` upsert of
`(file_hash, model, json.dumps(analysis), time.time())`. -/
def AnalysisCache.set (st : Store) (h m : String) (p : Payload) (now : Nat) : Store :=
  ⟨h, m, dumps p, now⟩ :: st.filter (fun r => !(r.fileHash == h && r.model == m))

/-- Model of `AnalysisCache.cleanup`: delete rows older than the TTL cutoff. -/
def AnalysisCache.cleanup (st : Store) (ttlDays now : Nat) : Store :=
  st.filter (fun r => !(r.timestamp < now - ttlDays * 86400))

/-- One recorded `AnalysisCache.set` call, for stating properties about
histories of cache writes. -/
structure SetOp where
  fileHash : String
  model : String
  payload : Payload
  time : Nat

/-- Replay a history of `set` calls over a store. -/
def applySets (st : Store) (ops : List SetOp) : Store :=
  ops.foldl (fun acc op => AnalysisCache.set acc op.fileHash op.model op.payload op.time) st

/-! ## Files and paths -/

/-- A `pathlib.Path` as the rename logic consumes it: `parent`, `stem` and
`suffix` (the extension, dot included). -/
structure FPath where
  dir : String
  stem : String
  ext : String
deriving DecidableEq

/-- `Path.name`: stem plus suffix. -/
def FPath.name (p : FPath) : String := p.stem ++ p.ext

/-- `str(path)` as reported in outcomes. -/
def pathStr (p : FPath) : String := p.dir ++ "/" ++ p.name

/-- A file on disk as the pipeline reads it: its path, its raw content
bytes (`st_size` is their count), its modification time, and the result of
`mimetypes.guess_type` on its name. -/
structure File where
  path : FPath
  content : List Nat
  mtime : Nat
  mimeGuess : Option String
deriving DecidableEq

/-- Byte encoding of a string (`str.encode()`), abstracted one byte per
character. -/
def strBytes (s : String) : List Nat := s.data.map Char.toNat

/-! ## SmartHash -/

/-- Model of `SmartHash.calculate`: digest `H` applied to the metadata line
`name|size|mtime`, then the first `chunkSize` content bytes, then — only when
`size > chunk_size * 2` — the last `chunkSize` bytes obtained by the tail
seek `f.seek(-chunk_size, 2); f.read(chunk_size)`. -/
def SmartHash.calculate {α : Type} (H : List Nat → α) (f : File)
    (chunkSize : Nat := 65536) : α :=
  let size := f.content.length
  let metadata := f.path.name ++ "|" ++ toString size ++ "|" ++ toString f.mtime
  let head := f.content.take chunkSize
  let tail := if size > chunkSize * 2 then f.content.drop (size - chunkSize) else []
  H (strBytes metadata ++ head ++ tail)

/-- Fingerprint concatenation as §4.1 of the spec words it: `name|size|mtime`,
the first `chunkSize` bytes, and — only if `size > 2*chunkSize` — the last
`chunkSize` bytes. -/
def fingerprintSpec {α : Type} (H : List Nat → α) (f : File) (chunkSize : Nat) : α :=
  H (strBytes (f.path.name ++ "|" ++ toString f.content.length ++ "|" ++ toString f.mtime)
     ++ f.content.take chunkSize
     ++ (if f.content.length > 2 * chunkSize then f.content.rtake chunkSize else []))

/-! ## AIAnalyzer -/

/-- The analyzer's fixed collaborators: the backend call
(`_analyze_with_gemini` / `_analyze_with_ollama`, which may raise), the model
identity string, and the clock. -/
structure AnalyzeEnv where
  backend : FPath → String → Except String Payload
  modelName : String
  now : Nat

/-- MIME detection: `mimetypes.guess_type` with the
`application/octet-stream` fallback. -/
def mimeOf (f : File) : String := f.mimeGuess.getD "application/octet-stream"

/-- The degraded placeholder `AIAnalyzer.analyze` substitutes when the
backend raises: the literal dictionary of the `except` branch. -/
def degradedResult (env : AnalyzeEnv) (f : File) (fileHash mime e : String) : Payload :=
  [("title", .s f.path.stem),
   ("description", .s ("Error analyzing file: " ++ e)),
   ("category", .s "other"),
   ("tags", .l []),
   ("mime_type", .s mime),
   ("file_hash", .s fileHash),
   ("analyzed_at", .s (toString env.now)),
   ("model", .s env.modelName),
   ("error", .s e)]

/-- The part of `AIAnalyzer.analyze` after a cache miss: detect the MIME
type, call the backend inside `try`; on success add the bookkeeping fields
and cache the result, on failure return the degraded placeholder without
touching the cache. -/
def analyzeFresh (env : AnalyzeEnv) (cache : Option Store) (f : File)
    (fileHash : String) : Payload × Option Store :=
  let mime := mimeOf f
  match env.backend f.path mime with
  | .ok r =>
    let r := setKey r "mime_type" (.s mime)
    let r := setKey r "file_hash" (.s fileHash)
    let r := setKey r "analyzed_at" (.s (toString env.now))
    let r := setKey r "model" (.s env.modelName)
    (r, cache.map (fun st => AnalysisCache.set st fileHash env.modelName r env.now))
  | .error e =>
    (degradedResult env f fileHash mime e, cache)

/-- Model of `AIAnalyzer.analyze`: fingerprint, consult the cache (a decode
error there propagates — it is raised outside the `try` block), return a hit
verbatim, otherwise run the fresh analysis. -/
def AIAnalyzer.analyze (H : List Nat → String) (env : AnalyzeEnv)
    (cache : Option Store) (f : File) : Except String (Payload × Option Store) :=
  let fileHash := SmartHash.calculate H f
  match cache with
  | some st =>
    match AnalysisCache.get st fileHash env.modelName with
    | .error e => .error e
    | .ok (some cached) => .ok (cached, cache)
    | .ok none => .ok (analyzeFresh env cache f fileHash)
  | none => .ok (analyzeFresh env cache f fileHash)

/-! ## FileOrganizer -/

/-- The configuration snapshot consumed by the organizer (the fields of
`Config` the pipeline reads). -/
structure Config where
  max_workers : Nat
  rate_limit_delay : Nat
  rename_files : Bool
  embed_metadata : Bool
  create_json_sidecar : Bool
  dry_run : Bool
  interactive : Bool

/-- The per-file result dictionary built by `process_file`. -/
structure Outcome where
  file : String
  success : Bool
  metadata : Option Payload
  renamed_to : Option String
  error : Option String
deriving DecidableEq

/-- Observable filesystem mutations performed by the pipeline: the
`file_path.rename` move, the exiftool metadata embed, and the JSON sidecar
write. -/
inductive Effect where
  | renamed (old new : FPath)
  | embedded (p : FPath)
  | sidecar (p : FPath)
deriving DecidableEq

/-- The character class of `re.sub(r'[<>:"/\\|?*]', '_', ...)`. -/
def reservedChar (c : Char) : Bool :=
  c = '<' ∨ c = '>' ∨ c = ':' ∨ c = '"' ∨ c = '/' ∨ c = '\\' ∨ c = '|' ∨ c = '?' ∨ c = '*'

/-- Python `str.strip()`: drop leading and trailing whitespace. -/
def pyStrip (s : String) : String :=
  String.mk (((s.data.dropWhile Char.isWhitespace).reverse.dropWhile Char.isWhitespace).reverse)

/-- The sanitization applied by `safe_rename`: replace each reserved
character with `'_'`, then strip whitespace. -/
def sanitize (s : String) : String :=
  pyStrip (String.mk (s.data.map (fun c => if reservedChar c then '_' else c)))

/-- Candidate path `file_path.parent / f"{stem}{file_path.suffix}"`. -/
def mkCand (fp : FPath) (stem : String) : FPath := ⟨fp.dir, stem, fp.ext⟩

/-- The collision `while` loop of `safe_rename`: while the candidate exists
and is a different file, move to `f"{stem}_{counter}"`.  `fs` is the set of
paths that currently exist.  The fuel argument only bounds the recursion;
`safe_rename` always supplies enough of it (`renameLoop_total` below), so the
`none` value is never produced there. -/
def renameLoop (fs : List FPath) (fp : FPath) (stem : String) :
    Nat → FPath → Nat → Option FPath
  | 0, _, _ => none
  | fuel + 1, cand, counter =>
    if cand ∈ fs ∧ cand ≠ fp then
      renameLoop fs fp stem fuel (mkCand fp (stem ++ "_" ++ decRepr counter)) (counter + 1)
    else some cand

/-- Model of `FileOrganizer.safe_rename`.  Returns the renamed-to path (or
`none` for the no-rename cases), the updated set of existing paths, and the
filesystem effects performed.  The outer `none` is the fuel artefact of
`renameLoop` and is unreachable (`renameLoop_total`). -/
def FileOrganizer.safe_rename (fs : List FPath) (dry_run : Bool) (fp : FPath)
    (suggested : String) : Option (Option FPath × List FPath × List Effect) :=
  if suggested = "" then some (none, fs, [])
  else
    match renameLoop fs fp (sanitize suggested) (fs.length + 1)
        (mkCand fp (sanitize suggested)) 1 with
    | none => none
    | some newPath =>
      if newPath = fp then some (none, fs, [])
      else if dry_run then some (some newPath, fs, [])
      else some (some newPath, newPath :: fs.filter (fun q => q ≠ fp), [.renamed fp newPath])

/-- The rename step of `process_file`: run only when renaming is enabled and
the analysis carries a `suggested_filename` key.  A non-string suggestion
makes `re.sub` raise a `TypeError`, which `process_file`'s handler catches.
Returns the reported `renamed_to`, the path the later steps use, the
existing-path set and the effects. -/
def renameStage (cfg : Config) (fs : List FPath) (fp : FPath) (metadata : Payload) :
    Option (Except String (Option FPath × FPath × List FPath × List Effect)) :=
  if cfg.rename_files then
    match getKey metadata "suggested_filename" with
    | some (.s sug) =>
      match FileOrganizer.safe_rename fs cfg.dry_run fp sug with
      | none => none
      | some (some np, fs', effs) => some (.ok (some np, np, fs', effs))
      | some (none, fs', effs) => some (.ok (none, fp, fs', effs))
    | some (.l _) => some (.error "TypeError: expected str instance")
    | none => some (.ok (none, fp, fs, []))
  else some (.ok (none, fp, fs, []))

/-- Model of `FileOrganizer.process_file`: analyze inside `try`, optionally
skip on interactive rejection, rename, embed metadata and write the sidecar
(both skipped under `dry_run`), and mark success; any exception is caught
into the outcome.  `approve` is the interactive `input()` answer.  The outer
`none` is the unreachable fuel artefact of the rename loop. -/
def FileOrganizer.process_file (H : List Nat → String) (env : AnalyzeEnv)
    (cfg : Config) (approve : Bool) (cache : Option Store) (fs : List FPath)
    (f : File) : Option (Outcome × Option Store × List FPath × List Effect) :=
  let base : Outcome :=
    { file := pathStr f.path, success := false, metadata := none
      renamed_to := none, error := none }
  match AIAnalyzer.analyze H env cache f with
  | .error e => some ({ base with error := some e }, cache, fs, [])
  | .ok (metadata, cache') =>
    let withMeta := { base with metadata := some metadata }
    if cfg.interactive ∧ ¬approve then some (withMeta, cache', fs, [])
    else
      match renameStage cfg fs f.path metadata with
      | none => none
      | some (.error e) => some ({ withMeta with error := some e }, cache', fs, [])
      | some (.ok (renamedTo, fp', fs', effs)) =>
        let effs := effs
          ++ (if cfg.embed_metadata ∧ ¬cfg.dry_run then [Effect.embedded fp'] else [])
          ++ (if cfg.create_json_sidecar ∧ ¬cfg.dry_run then [Effect.sidecar fp'] else [])
        some ({ withMeta with success := true, renamed_to := renamedTo.map pathStr },
              cache', fs', effs)

/-- Model of `FileOrganizer.process_batch`: each submitted task runs the
per-file pipeline; results are aggregated in completion order, modelled here
as submission order.  `process_file` never raises (its handler catches every
exception), so the coordinator's own `except` branch is dead code; the
worker count and the rate-limit sleep affect scheduling only. -/
def FileOrganizer.process_batch (H : List Nat → String) (env : AnalyzeEnv)
    (cfg : Config) (approve : Bool) (cache : Option Store) (fs : List FPath) :
    List File → Option (List Outcome × Option Store × List FPath × List Effect)
  | [] => some ([], cache, fs, [])
  | f :: rest =>
    match FileOrganizer.process_file H env cfg approve cache fs f with
    | none => none
    | some (o, cache1, fs1, e1) =>
      match FileOrganizer.process_batch H env cfg approve cache1 fs1 rest with
      | none => none
      | some (os, cache2, fs2, e2) => some (o :: os, cache2, fs2, e1 ++ e2)

/-! ## Auxiliary measures and predicates used by the proofs -/

/-- Decimal value of a digit string: left inverse of `decAux`. -/
def valD (cs : List Char) : Nat := cs.foldl (fun a c => a * 10 + (c.toNat - 48)) 0

/-- Number of array items below a value: the fuel the array parser consumes. -/
def jsize : JVal → Nat
  | .s _ => 0
  | .l xs => xs.length

/-- Fuel consumed by the object parsers below a payload. -/
def psize (p : Payload) : Nat := (p.map (fun e => 1 + jsize e.2)).sum

/-- The `i`-th candidate the collision loop will try, starting from `cand`
with counter `k`. -/
def seqCand (fp : FPath) (stem : String) (cand : FPath) (k : Nat) : Nat → FPath
  | 0 => cand
  | i + 1 => mkCand fp (stem ++ "_" ++ decRepr (k + i))

/-- The cache misses for this file: either caching is disabled or the lookup
returns absent. -/
def cacheMisses (H : List Nat → String) (env : AnalyzeEnv) (cache : Option Store)
    (f : File) : Prop :=
  ∀ st, cache = some st →
    AnalysisCache.get st (SmartHash.calculate H f) env.modelName = .ok none

/-! ## Properties of the decimal rendering -/



theorem valD_append_digit (cs : List Char) (c : Char) :
    valD (cs ++ [c]) = valD cs * 10 + (c.toNat - 48) := by
  simp [valD, List.foldl_append]

theorem digitCh_toNat {n : Nat} (h : n < 10) : (digitCh n).toNat = 48 + n := by
  unfold digitCh
  interval_cases n <;> decide

theorem valD_decAux : ∀ fuel n : Nat, n ≤ fuel → valD (decAux fuel n) = n := by
  intro fuel
  induction fuel with
  | zero =>
    intro n h
    interval_cases n
    decide
  | succ fuel ih =>
    intro n h
    rw [decAux]
    by_cases h10 : n < 10
    · simp only [if_pos h10, valD, List.foldl_cons, List.foldl_nil, digitCh_toNat h10]
      omega
    · rw [if_neg h10, valD_append_digit, ih (n / 10) (by omega),
        digitCh_toNat (Nat.mod_lt n (by omega))]
      omega

theorem decRepr_injective : Function.Injective decRepr := by
  intro a b h
  have hd : decAux a a = decAux b b := congrArg String.data h
  have ha := valD_decAux a a le_rfl
  have hb := valD_decAux b b le_rfl
  rw [hd, hb] at ha
  exact ha.symm

/-! ## Totality of the collision loop -/



theorem seqCand_shift (fp : FPath) (stem : String) (cand : FPath) (k j : Nat) :
    seqCand fp stem (mkCand fp (stem ++ "_" ++ decRepr k)) (k + 1) j
      = seqCand fp stem cand k (j + 1) := by
  cases j with
  | zero => simp [seqCand]
  | succ i =>
    simp only [seqCand]
    have : k + 1 + i = k + (i + 1) := by omega
    rw [this]

/-- If the loop runs out of fuel, every candidate it visited was an existing
path different from the current file. -/
theorem renameLoop_none_blocked (fs : List FPath) (fp : FPath) (stem : String) :
    ∀ fuel cand k, renameLoop fs fp stem fuel cand k = none →
      ∀ i < fuel, seqCand fp stem cand k i ∈ fs ∧ seqCand fp stem cand k i ≠ fp := by
  intro fuel
  induction fuel with
  | zero =>
    intro cand k _ i hi
    omega
  | succ fuel ih =>
    intro cand k hnone i hi
    rw [renameLoop] at hnone
    by_cases hc : cand ∈ fs ∧ cand ≠ fp
    · rw [if_pos hc] at hnone
      cases i with
      | zero => exact hc
      | succ j =>
        have := ih _ _ hnone j (by omega)
        rwa [seqCand_shift fp stem cand k j] at this
    · rw [if_neg hc] at hnone
      exact absurd hnone (by simp)

theorem topCand_injective (fp : FPath) (stem : String) :
    Function.Injective (seqCand fp stem (mkCand fp stem) 1) := by
  have hne : ∀ x : String, stem ≠ stem ++ "_" ++ x := by
    intro x h
    have := congrArg String.length h
    simp only [String.length_append] at this
    have h1 : ("_" : String).length = 1 := by decide
    omega
  intro i j h
  match i, j with
  | 0, 0 => rfl
  | 0, j + 1 =>
    exact absurd (congrArg FPath.stem h) (hne _)
  | i + 1, 0 =>
    exact absurd (congrArg FPath.stem h.symm) (hne _)
  | i + 1, j + 1 =>
    have hs : stem ++ "_" ++ decRepr (1 + i) = stem ++ "_" ++ decRepr (1 + j) :=
      congrArg FPath.stem h
    have hd := congrArg String.data hs
    simp only [String.data_append] at hd
    have := List.append_cancel_left hd
    have hrepr : decRepr (1 + i) = decRepr (1 + j) := String.ext this
    have := decRepr_injective hrepr
    omega

/-- The fuel `fs.length + 1` supplied by `safe_rename` is always enough:
the candidates are pairwise distinct, so at most `fs.length` of them can be
blocked by existing paths.  This is the termination of the Python `while`
loop. -/
theorem renameLoop_total (fs : List FPath) (fp : FPath) (stem : String) :
    renameLoop fs fp stem (fs.length + 1) (mkCand fp stem) 1 ≠ none := by
  intro hnone
  have hb := renameLoop_none_blocked fs fp stem (fs.length + 1) (mkCand fp stem) 1 hnone
  have hinj := topCand_injective fp stem
  have hnodup : ((List.range (fs.length + 1)).map (seqCand fp stem (mkCand fp stem) 1)).Nodup :=
    (List.nodup_range _).map hinj
  have hsub : ((List.range (fs.length + 1)).map (seqCand fp stem (mkCand fp stem) 1)) ⊆ fs := by
    intro x hx
    simp only [List.mem_map, List.mem_range] at hx
    obtain ⟨i, hi, rfl⟩ := hx
    exact (hb i hi).1
  have h1 : ((List.range (fs.length + 1)).map (seqCand fp stem (mkCand fp stem) 1)).toFinset.card
      = fs.length + 1 := by
    rw [List.toFinset_card_of_nodup hnodup]
    simp
  have h2 : ((List.range (fs.length + 1)).map (seqCand fp stem (mkCand fp stem) 1)).toFinset
      ⊆ fs.toFinset := by
    intro x hx
    rw [List.mem_toFinset] at hx ⊢
    exact hsub hx
  have h3 := Finset.card_le_card h2
  have h4 := List.toFinset_card_le fs
  omega

/-! ## Round trip of the payload serializer

The equation compiler splits the parser equations along the scrutinee
shape, so the branch equations actually reached are restated first. -/

theorem mk_data (s : String) : String.mk s.data = s := by
  cases s
  rfl

theorem parseStrBody_quote (rest : List Char) :
    parseStrBody ('"' :: rest) = some ([], rest) := by
  cases rest <;> rfl

theorem parseStrBody_esc_step (c : Char) (rest : List Char) :
    parseStrBody ('\\' :: c :: rest) = (parseStrBody rest).map (fun p => (c :: p.1, p.2)) := rfl

theorem parseStrBody_cons (c : Char) (rest : List Char) :
    parseStrBody (c :: rest) =
      if c = '"' then some ([], rest)
      else if c = '\\' then
        match rest with
        | [] => none
        | d :: rest' => (parseStrBody rest').map (fun p => (d :: p.1, p.2))
      else (parseStrBody rest).map (fun p => (c :: p.1, p.2)) := by
  cases rest <;> rfl

theorem parseStr_quote (rest : List Char) :
    parseStr ('"' :: rest) = (parseStrBody rest).map (fun p => (String.mk p.1, p.2)) := rfl

theorem parseItemsTail_rb (fuel : Nat) (rest : List Char) :
    parseItemsTail fuel (']' :: rest) = some ([], rest) := by
  cases fuel <;> rfl

theorem parseItemsTail_comma (fuel : Nat) (rest : List Char) :
    parseItemsTail (fuel + 1) (',' :: ' ' :: rest) =
      (match parseStr rest with
       | some (x, rest') => (parseItemsTail fuel rest').map (fun p => (x :: p.1, p.2))
       | none => none) := rfl

theorem parseJVal_quote (fuel : Nat) (t : List Char) :
    parseJVal fuel ('"' :: t) = (parseStr ('"' :: t)).map (fun p => (JVal.s p.1, p.2)) := rfl

theorem parseJVal_nil_list (fuel : Nat) (rest : List Char) :
    parseJVal fuel ('[' :: ']' :: rest) = some (.l [], rest) := rfl

theorem parseJVal_cons_list (fuel : Nat) (t : List Char) :
    parseJVal fuel ('[' :: '"' :: t) =
      (match parseStr ('"' :: t) with
       | some (x, rest') => (parseItemsTail fuel rest').map (fun p => (JVal.l (x :: p.1), p.2))
       | none => none) := rfl

theorem parseEntriesTail_rb (fuel : Nat) (rest : List Char) :
    parseEntriesTail fuel ('}' :: rest) = some ([], rest) := by
  cases fuel <;> rfl

theorem parseEntriesTail_comma (fuel : Nat) (rest : List Char) :
    parseEntriesTail (fuel + 1) (',' :: ' ' :: rest) =
      (match parseStr rest with
       | some (k, rest') =>
         match rest' with
         | ':' :: ' ' :: rest'' =>
           match parseJVal fuel rest'' with
           | some (v, rest3) => (parseEntriesTail fuel rest3).map (fun p => ((k, v) :: p.1, p.2))
           | none => none
         | _ => none
       | none => none) := rfl

theorem parseObj_empty (fuel : Nat) (rest : List Char) :
    parseObj fuel ('{' :: '}' :: rest) = some ([], rest) := rfl

theorem parseObj_cons (fuel : Nat) (t : List Char) :
    parseObj fuel ('{' :: '"' :: t) =
      (match parseStr ('"' :: t) with
       | some (k, rest') =>
         match rest' with
         | ':' :: ' ' :: rest'' =>
           match parseJVal fuel rest'' with
           | some (v, rest3) => (parseEntriesTail fuel rest3).map (fun p => ((k, v) :: p.1, p.2))
           | none => none
         | _ => none
       | none => none) := rfl

theorem parseStrBody_esc : ∀ s rest : List Char,
    parseStrBody (escStr s ++ '"' :: rest) = some (s, rest) := by
  intro s
  induction s with
  | nil =>
    intro rest
    simp [escStr, parseStrBody_quote]
  | cons c cs ih =>
    intro rest
    by_cases h : c = '"' ∨ c = '\\'
    · simp only [escStr, escChar, if_pos h, List.cons_append, List.append_assoc,
        List.nil_append]
      rw [parseStrBody_esc_step, ih]
      rfl
    · push_neg at h
      simp only [escStr, escChar, if_neg (by tauto : ¬(c = '"' ∨ c = '\\')),
        List.cons_append, List.nil_append]
      rw [parseStrBody_cons, if_neg h.1, if_neg h.2, ih]
      rfl

theorem parseStr_emit (s : String) (rest : List Char) :
    parseStr (emitStr s ++ rest) = some (s, rest) := by
  simp only [emitStr, List.cons_append, List.append_assoc, List.singleton_append]
  rw [parseStr_quote, parseStrBody_esc]
  simp [mk_data]

theorem parseItemsTail_emit : ∀ (xs : List String) (fuel : Nat) (rest : List Char),
    xs.length ≤ fuel →
    parseItemsTail fuel (emitItemsTail xs ++ rest) = some (xs, rest) := by
  intro xs
  induction xs with
  | nil =>
    intro fuel rest _
    simp [emitItemsTail, parseItemsTail_rb]
  | cons x xs ih =>
    intro fuel rest hf
    obtain ⟨g, rfl⟩ : ∃ g, fuel = g + 1 := ⟨fuel - 1, by simp at hf; omega⟩
    simp only [emitItemsTail, List.cons_append, List.append_assoc]
    rw [parseItemsTail_comma, parseStr_emit x]
    simp [ih g rest (by simp at hf; omega)]



theorem parseJVal_emit (v : JVal) (fuel : Nat) (rest : List Char)
    (hf : jsize v ≤ fuel) :
    parseJVal fuel (emitJVal v ++ rest) = some (v, rest) := by
  match v with
  | .s s =>
    have hq : emitStr s ++ rest = '"' :: (escStr s.data ++ '"' :: rest) := by
      simp [emitStr]
    rw [emitJVal, hq, parseJVal_quote, ← hq, parseStr_emit]
    rfl
  | .l [] =>
    simp [emitJVal, parseJVal_nil_list]
  | .l (x :: xs) =>
    simp only [jsize, List.length_cons] at hf
    have hq : emitStr x ++ (emitItemsTail xs ++ rest)
        = '"' :: (escStr x.data ++ '"' :: (emitItemsTail xs ++ rest)) := by
      simp [emitStr]
    simp only [emitJVal, List.cons_append, List.append_assoc]
    rw [hq, parseJVal_cons_list, ← hq, parseStr_emit x]
    simp [parseItemsTail_emit xs fuel rest (by omega)]



theorem parseEntriesTail_emit : ∀ (es : Payload) (fuel : Nat) (rest : List Char),
    psize es ≤ fuel →
    parseEntriesTail fuel (emitEntriesTail es ++ rest) = some (es, rest) := by
  intro es
  induction es with
  | nil =>
    intro fuel rest _
    simp [emitEntriesTail, parseEntriesTail_rb]
  | cons e es ih =>
    intro fuel rest hf
    obtain ⟨k, v⟩ := e
    simp only [psize, List.map_cons, List.sum_cons] at hf
    obtain ⟨g, rfl⟩ : ∃ g, fuel = g + 1 := ⟨fuel - 1, by omega⟩
    simp only [emitEntriesTail, List.cons_append, List.append_assoc]
    rw [parseEntriesTail_comma, parseStr_emit k]
    simp only [List.cons_append]
    simp [parseJVal_emit v g _ (by omega), ih g rest (by simp only [psize]; omega)]

theorem parseObj_emit (p : Payload) (fuel : Nat) (rest : List Char)
    (hf : psize p ≤ fuel) :
    parseObj fuel (emitObj p ++ rest) = some (p, rest) := by
  match p with
  | [] => simp [emitObj, parseObj_empty]
  | (k, v) :: es =>
    simp only [psize, List.map_cons, List.sum_cons] at hf
    simp only [emitObj, List.cons_append, List.append_assoc]
    have hq : ∀ t : List Char, emitStr k ++ t = '"' :: (escStr k.data ++ '"' :: t) := by
      intro t
      simp [emitStr]
    rw [hq, parseObj_cons, ← hq, parseStr_emit k]
    simp only [List.cons_append]
    simp [parseJVal_emit v fuel _ (by omega),
      parseEntriesTail_emit es fuel rest (by simp only [psize]; omega)]

theorem emitItemsTail_length_ge (xs : List String) : xs.length ≤ (emitItemsTail xs).length := by
  induction xs with
  | nil => simp [emitItemsTail]
  | cons x xs ih =>
    simp only [emitItemsTail, List.length_cons, List.length_append]
    omega

theorem jsize_le_emit (v : JVal) : jsize v ≤ (emitJVal v).length := by
  match v with
  | .s s => simp [jsize]
  | .l [] => simp [jsize, emitJVal]
  | .l (x :: xs) =>
    have := emitItemsTail_length_ge xs
    simp only [jsize, emitJVal, List.length_cons, List.length_append]
    omega

theorem psize_le_emitEntriesTail (es : Payload) : psize es ≤ (emitEntriesTail es).length := by
  induction es with
  | nil => simp [psize, emitEntriesTail]
  | cons e es ih =>
    obtain ⟨k, v⟩ := e
    have := jsize_le_emit v
    simp only [psize, emitEntriesTail, List.map_cons, List.sum_cons, List.length_cons,
      List.length_append] at *
    omega

theorem psize_le_emitObj (p : Payload) : psize p ≤ (emitObj p).length := by
  match p with
  | [] => simp [psize, emitObj]
  | (k, v) :: es =>
    have h1 := jsize_le_emit v
    have h2 := psize_le_emitEntriesTail es
    simp only [psize, emitObj, List.map_cons, List.sum_cons, List.length_cons,
      List.length_append] at *
    omega

/-- The serializer round trip: every payload stored through `json.dumps` is
recovered verbatim by `json.loads`. -/
theorem loads_dumps (p : Payload) : loads (dumps p) = some p := by
  have h := parseObj_emit p (emitObj p).length [] (psize_le_emitObj p)
  rw [List.append_nil] at h
  unfold loads dumps
  simp [h]

/-! ## Cache store lemmas -/

theorem findRow_set_same (st : Store) (h m : String) (p : Payload) (now : Nat) :
    findRow (AnalysisCache.set st h m p now) h m = some ⟨h, m, dumps p, now⟩ := by
  simp [findRow, AnalysisCache.set]

theorem get_set_same (st : Store) (h m : String) (p : Payload) (now : Nat) :
    AnalysisCache.get (AnalysisCache.set st h m p now) h m = .ok (some p) := by
  rw [AnalysisCache.get, findRow_set_same]
  simp [loads_dumps]

/-- A key never matched by any row looks up to `none`. -/
theorem findRow_eq_none (st : Store) (h m : String)
    (hnm : ∀ r ∈ st, ¬(r.fileHash = h ∧ r.model = m)) :
    findRow st h m = none := by
  rw [findRow, List.find?_eq_none]
  intro r hr
  have := hnm r hr
  simp only [Bool.and_eq_true, beq_iff_eq]
  tauto

/-- Rows produced by replaying `set` calls that all use other keys never
match the key. -/
theorem applySets_no_match (h m : String) :
    ∀ (ops : List SetOp) (st : Store),
      (∀ op ∈ ops, ¬(op.fileHash = h ∧ op.model = m)) →
      (∀ r ∈ st, ¬(r.fileHash = h ∧ r.model = m)) →
      ∀ r ∈ applySets st ops, ¬(r.fileHash = h ∧ r.model = m) := by
  intro ops
  induction ops with
  | nil =>
    intro st _ hst r hr
    exact hst r hr
  | cons op ops ih =>
    intro st hops hst r hr
    refine ih _ (fun o ho => hops o (List.mem_cons_of_mem _ ho)) ?_ r hr
    intro r' hr'
    rcases List.mem_cons.mp hr' with hhead | htail
    · subst hhead
      exact hops op (List.mem_cons_self _ _)
    · exact hst r' (List.mem_of_mem_filter htail)

/-! ## AIAnalyzer lemmas -/



/-- On a cache miss with a failing backend, `analyze` returns exactly the
degraded placeholder and the cache object it was given, untouched. -/
theorem analyze_backend_error (H : List Nat → String) (env : AnalyzeEnv)
    (cache : Option Store) (f : File) (e : String)
    (hmiss : cacheMisses H env cache f)
    (hfail : env.backend f.path (mimeOf f) = .error e) :
    AIAnalyzer.analyze H env cache f
      = .ok (degradedResult env f (SmartHash.calculate H f) (mimeOf f) e, cache) := by
  unfold AIAnalyzer.analyze
  cases cache with
  | none => simp [analyzeFresh, hfail]
  | some st =>
    have h := hmiss st rfl
    simp [h, analyzeFresh, hfail]

/-! ## Rename resolver lemmas -/

/-- Whatever the loop returns is either free or the current file itself. -/
theorem renameLoop_some_free (fs : List FPath) (fp : FPath) (stem : String) :
    ∀ fuel cand k np, renameLoop fs fp stem fuel cand k = some np → np ∉ fs ∨ np = fp := by
  intro fuel
  induction fuel with
  | zero =>
    intro cand k np h
    exact absurd h (by simp [renameLoop])
  | succ fuel ih =>
    intro cand k np h
    rw [renameLoop] at h
    by_cases hc : cand ∈ fs ∧ cand ≠ fp
    · rw [if_pos hc] at h
      exact ih _ _ _ h
    · rw [if_neg hc] at h
      cases h
      push_neg at hc
      by_cases hm : cand ∈ fs
      · exact Or.inr (hc hm)
      · exact Or.inl hm

/-- Whatever the loop returns is the starting candidate or a counter-suffixed
candidate; in particular it keeps the directory and the extension. -/
theorem renameLoop_some_shape (fs : List FPath) (fp : FPath) (stem : String) :
    ∀ fuel cand k np, renameLoop fs fp stem fuel cand k = some np →
      np = cand ∨ ∃ j, np = mkCand fp (stem ++ "_" ++ decRepr j) := by
  intro fuel
  induction fuel with
  | zero =>
    intro cand k np h
    exact absurd h (by simp [renameLoop])
  | succ fuel ih =>
    intro cand k np h
    rw [renameLoop] at h
    by_cases hc : cand ∈ fs ∧ cand ≠ fp
    · rw [if_pos hc] at h
      rcases ih _ _ _ h with hcand | hj
      · exact Or.inr ⟨k, hcand⟩
      · exact Or.inr hj
    · rw [if_neg hc] at h
      cases h
      exact Or.inl rfl

/-- Branch equations for `safe_rename`. -/
theorem safe_rename_empty (fs : List FPath) (dry : Bool) (fp : FPath) :
    FileOrganizer.safe_rename fs dry fp "" = some (none, fs, []) := by
  simp [FileOrganizer.safe_rename]

theorem safe_rename_of_loop (fs : List FPath) (dry : Bool) (fp : FPath) (sugg : String)
    (np : FPath) (hs : sugg ≠ "")
    (hloop : renameLoop fs fp (sanitize sugg) (fs.length + 1)
        (mkCand fp (sanitize sugg)) 1 = some np) :
    FileOrganizer.safe_rename fs dry fp sugg =
      if np = fp then some (none, fs, [])
      else if dry then some (some np, fs, [])
      else some (some np, np :: fs.filter (fun q => q ≠ fp), [.renamed fp np]) := by
  unfold FileOrganizer.safe_rename
  rw [if_neg hs, hloop]

theorem safe_rename_isSome (fs : List FPath) (dry : Bool) (fp : FPath) (sugg : String) :
    (FileOrganizer.safe_rename fs dry fp sugg).isSome := by
  by_cases hs : sugg = ""
  · subst hs
    rw [safe_rename_empty]
    rfl
  · cases hloop : renameLoop fs fp (sanitize sugg) (fs.length + 1)
        (mkCand fp (sanitize sugg)) 1 with
    | none => exact absurd hloop (renameLoop_total fs fp (sanitize sugg))
    | some np =>
      rw [safe_rename_of_loop fs dry fp sugg np hs hloop]
      by_cases h1 : np = fp
      · simp [h1]
      · cases dry <;> simp [h1]

/-- In dry-run mode `safe_rename` never changes the path set and performs no
effect. -/
theorem safe_rename_dry (fs : List FPath) (fp : FPath) (sugg : String)
    (r : Option FPath) (fs' : List FPath) (effs : List Effect)
    (h : FileOrganizer.safe_rename fs true fp sugg = some (r, fs', effs)) :
    fs' = fs ∧ effs = [] := by
  by_cases hs : sugg = ""
  · subst hs
    rw [safe_rename_empty] at h
    cases h
    exact ⟨rfl, rfl⟩
  · cases hloop : renameLoop fs fp (sanitize sugg) (fs.length + 1)
        (mkCand fp (sanitize sugg)) 1 with
    | none =>
      exact absurd hloop (renameLoop_total fs fp (sanitize sugg))
    | some np =>
      rw [safe_rename_of_loop fs true fp sugg np hs hloop] at h
      by_cases h1 : np = fp
      · rw [if_pos h1] at h
        cases h
        exact ⟨rfl, rfl⟩
      · rw [if_neg h1, if_pos rfl] at h
        cases h
        exact ⟨rfl, rfl⟩

/-- The dry-run flag never changes which destination `safe_rename` reports. -/
theorem safe_rename_dry_same_dest (fs : List FPath) (fp : FPath) (sugg : String) :
    (FileOrganizer.safe_rename fs true fp sugg).map (fun r => r.1)
      = (FileOrganizer.safe_rename fs false fp sugg).map (fun r => r.1) := by
  by_cases hs : sugg = ""
  · subst hs
    rw [safe_rename_empty, safe_rename_empty]
  · cases hloop : renameLoop fs fp (sanitize sugg) (fs.length + 1)
        (mkCand fp (sanitize sugg)) 1 with
    | none =>
      exact absurd hloop (renameLoop_total fs fp (sanitize sugg))
    | some np =>
      rw [safe_rename_of_loop fs true fp sugg np hs hloop,
        safe_rename_of_loop fs false fp sugg np hs hloop]
      by_cases h1 : np = fp
      · simp [h1]
      · simp [h1]

/-! ## Pipeline lemmas -/

theorem renameStage_isSome (cfg : Config) (fs : List FPath) (fp : FPath) (md : Payload) :
    (renameStage cfg fs fp md).isSome := by
  unfold renameStage
  by_cases hr : cfg.rename_files
  · rw [if_pos hr]
    cases hk : getKey md "suggested_filename" with
    | none => rfl
    | some v =>
      cases v with
      | s sug =>
        cases hsr : FileOrganizer.safe_rename fs cfg.dry_run fp sug with
        | none =>
          have := safe_rename_isSome fs cfg.dry_run fp sug
          rw [hsr] at this
          cases this
        | some r =>
          obtain ⟨ro, fs', effs⟩ := r
          cases ro <;> simp [hsr]
      | l vs => rfl
  · rw [if_neg hr]
    rfl

theorem renameStage_no_suggestion (cfg : Config) (fs : List FPath) (fp : FPath)
    (md : Payload) (hk : getKey md "suggested_filename" = none) :
    renameStage cfg fs fp md = some (.ok (none, fp, fs, [])) := by
  unfold renameStage
  by_cases hr : cfg.rename_files
  · rw [if_pos hr, hk]
  · rw [if_neg hr]

/-- Under `dry_run` the rename stage leaves the path set alone and performs
no effect, whatever it reports. -/
theorem renameStage_dry (cfg : Config) (fs : List FPath) (fp : FPath) (md : Payload)
    (hdry : cfg.dry_run = true) (rt : Option FPath) (fp' : FPath) (fs' : List FPath)
    (effs : List Effect)
    (h : renameStage cfg fs fp md = some (.ok (rt, fp', fs', effs))) :
    fs' = fs ∧ effs = [] := by
  unfold renameStage at h
  by_cases hr : cfg.rename_files
  · rw [if_pos hr] at h
    cases hk : getKey md "suggested_filename" with
    | none =>
      rw [hk] at h
      cases h
      exact ⟨rfl, rfl⟩
    | some v =>
      rw [hk] at h
      cases v with
      | s sug =>
        cases hsr : FileOrganizer.safe_rename fs cfg.dry_run fp sug with
        | none =>
          simp [hsr] at h
        | some r =>
          obtain ⟨ro, fs2, effs2⟩ := r
          simp only [hsr] at h
          have hfr : fs2 = fs ∧ effs2 = [] := by
            rw [hdry] at hsr
            exact safe_rename_dry fs fp sug ro fs2 effs2 hsr
          cases ro with
          | none =>
            simp at h
            obtain ⟨h1, h2, h3, h4⟩ := h
            exact ⟨h3 ▸ hfr.1, h4 ▸ hfr.2⟩
          | some np =>
            simp at h
            obtain ⟨h1, h2, h3, h4⟩ := h
            exact ⟨h3 ▸ hfr.1, h4 ▸ hfr.2⟩
      | l vs =>
        simp [hk] at h
  · rw [if_neg hr] at h
    cases h
    exact ⟨rfl, rfl⟩

/-- The outcome of a failed analysis step (an exception escaping `analyze`):
caught by `process_file`'s handler, state untouched. -/
theorem process_file_error (H : List Nat → String) (env : AnalyzeEnv) (cfg : Config)
    (approve : Bool) (cache : Option Store) (fs : List FPath) (f : File) (e : String)
    (he : AIAnalyzer.analyze H env cache f = .error e) :
    FileOrganizer.process_file H env cfg approve cache fs f
      = some ({ file := pathStr f.path, success := false, metadata := none
                renamed_to := none, error := some e }, cache, fs, []) := by
  unfold FileOrganizer.process_file
  rw [he]

/-- Branch equation: interactive rejection returns the not-yet-successful
outcome with the analysis attached. -/
theorem process_file_skip (H : List Nat → String) (env : AnalyzeEnv) (cfg : Config)
    (approve : Bool) (cache : Option Store) (fs : List FPath) (f : File)
    (md : Payload) (cache1 : Option Store)
    (hana : AIAnalyzer.analyze H env cache f = .ok (md, cache1))
    (hint : cfg.interactive ∧ ¬approve) :
    FileOrganizer.process_file H env cfg approve cache fs f
      = some ({ file := pathStr f.path, success := false, metadata := some md
                renamed_to := none, error := none }, cache1, fs, []) := by
  unfold FileOrganizer.process_file
  rw [hana]
  simp [hint.1, hint.2]

/-- Branch equation: a non-string suggestion makes the rename stage raise and
the handler catch. -/
theorem process_file_rserr (H : List Nat → String) (env : AnalyzeEnv) (cfg : Config)
    (approve : Bool) (cache : Option Store) (fs : List FPath) (f : File)
    (md : Payload) (cache1 : Option Store) (e : String)
    (hana : AIAnalyzer.analyze H env cache f = .ok (md, cache1))
    (hint : ¬(cfg.interactive ∧ ¬approve))
    (hrs : renameStage cfg fs f.path md = some (.error e)) :
    FileOrganizer.process_file H env cfg approve cache fs f
      = some ({ file := pathStr f.path, success := false, metadata := some md
                renamed_to := none, error := some e }, cache1, fs, []) := by
  unfold FileOrganizer.process_file
  rw [hana]
  simp [hint, hrs]
  tauto

/-- Branch equation: the successful pipeline tail after the rename stage. -/
theorem process_file_ok (H : List Nat → String) (env : AnalyzeEnv) (cfg : Config)
    (approve : Bool) (cache : Option Store) (fs : List FPath) (f : File)
    (md : Payload) (cache1 : Option Store) (rt : Option FPath) (fp' : FPath)
    (fs' : List FPath) (effs : List Effect)
    (hana : AIAnalyzer.analyze H env cache f = .ok (md, cache1))
    (hint : ¬(cfg.interactive ∧ ¬approve))
    (hrs : renameStage cfg fs f.path md = some (.ok (rt, fp', fs', effs))) :
    FileOrganizer.process_file H env cfg approve cache fs f
      = some ({ file := pathStr f.path, success := true, metadata := some md
                renamed_to := rt.map pathStr, error := none }, cache1, fs',
              effs ++ (if cfg.embed_metadata ∧ ¬cfg.dry_run then [Effect.embedded fp'] else [])
                   ++ (if cfg.create_json_sidecar ∧ ¬cfg.dry_run then [Effect.sidecar fp'] else [])) := by
  unfold FileOrganizer.process_file
  rw [hana]
  simp [hint, hrs]
  tauto

/-- Every run of the per-file pipeline produces exactly one outcome, and the
outcome reports the submitted path. -/
theorem process_file_spec (H : List Nat → String) (env : AnalyzeEnv) (cfg : Config)
    (approve : Bool) (cache : Option Store) (fs : List FPath) (f : File) :
    ∃ o cache' fs' effs,
      FileOrganizer.process_file H env cfg approve cache fs f = some (o, cache', fs', effs)
      ∧ o.file = pathStr f.path := by
  cases hana : AIAnalyzer.analyze H env cache f with
  | error e =>
    exact ⟨_, _, _, _, process_file_error H env cfg approve cache fs f e hana, rfl⟩
  | ok pr =>
    obtain ⟨md, cache1⟩ := pr
    by_cases hint : cfg.interactive ∧ ¬approve
    · exact ⟨_, _, _, _, process_file_skip H env cfg approve cache fs f md cache1 hana hint, rfl⟩
    · cases hrs : renameStage cfg fs f.path md with
      | none =>
        have := renameStage_isSome cfg fs f.path md
        rw [hrs] at this
        cases this
      | some r =>
        cases r with
        | error e =>
          exact ⟨_, _, _, _,
            process_file_rserr H env cfg approve cache fs f md cache1 e hana hint hrs, rfl⟩
        | ok tup =>
          obtain ⟨rt, fp', fs', effs⟩ := tup
          exact ⟨_, _, _, _,
            process_file_ok H env cfg approve cache fs f md cache1 rt fp' fs' effs hana hint hrs, rfl⟩

/-- The coordinator always returns one outcome per submitted file, each
reporting its own path, whatever the per-file pipelines do. -/
theorem process_batch_spec (H : List Nat → String) (env : AnalyzeEnv) (cfg : Config)
    (approve : Bool) :
    ∀ (files : List File) (cache : Option Store) (fs : List FPath),
      ∃ outs cache' fs' effs,
        FileOrganizer.process_batch H env cfg approve cache fs files
          = some (outs, cache', fs', effs)
        ∧ outs.map (fun o => o.file) = files.map (fun f => pathStr f.path) := by
  intro files
  induction files with
  | nil =>
    intro cache fs
    exact ⟨[], cache, fs, [], rfl, rfl⟩
  | cons f rest ih =>
    intro cache fs
    obtain ⟨o, c1, f1, e1, hpf, hfile⟩ := process_file_spec H env cfg approve cache fs f
    obtain ⟨outs, c2, f2, e2, hb, hmap⟩ := ih c1 f1
    refine ⟨o :: outs, c2, f2, e1 ++ e2, ?_, ?_⟩
    · simp [FileOrganizer.process_batch, hpf, hb]
    · simp [hfile, hmap]

/-- Sequential composition of the coordinator over an appended task list. -/
theorem process_batch_append (H : List Nat → String) (env : AnalyzeEnv) (cfg : Config)
    (approve : Bool) :
    ∀ (xs ys : List File) (cache : Option Store) (fs : List FPath)
      (o1 : List Outcome) (c1 : Option Store) (f1 : List FPath) (e1 : List Effect)
      (o2 : List Outcome) (c2 : Option Store) (f2 : List FPath) (e2 : List Effect),
      FileOrganizer.process_batch H env cfg approve cache fs xs = some (o1, c1, f1, e1) →
      FileOrganizer.process_batch H env cfg approve c1 f1 ys = some (o2, c2, f2, e2) →
      FileOrganizer.process_batch H env cfg approve cache fs (xs ++ ys)
        = some (o1 ++ o2, c2, f2, e1 ++ e2) := by
  intro xs
  induction xs with
  | nil =>
    intro ys cache fs o1 c1 f1 e1 o2 c2 f2 e2 h1 h2
    simp only [FileOrganizer.process_batch] at h1
    obtain ⟨rfl, rfl, rfl, rfl⟩ : o1 = [] ∧ cache = c1 ∧ fs = f1 ∧ e1 = [] := by
      cases h1
      exact ⟨rfl, rfl, rfl, rfl⟩
    simpa using h2
  | cons f xs ih =>
    intro ys cache fs o1 c1 f1 e1 o2 c2 f2 e2 h1 h2
    rw [FileOrganizer.process_batch] at h1
    cases hpf : FileOrganizer.process_file H env cfg approve cache fs f with
    | none =>
      rw [hpf] at h1
      cases h1
    | some r =>
      obtain ⟨o, ca, fa, ea⟩ := r
      rw [hpf] at h1
      cases hbx : FileOrganizer.process_batch H env cfg approve ca fa xs with
      | none =>
        simp [hbx] at h1
      | some rb =>
        obtain ⟨os, cb, fb, eb⟩ := rb
        simp only [hbx] at h1
        simp at h1
        obtain ⟨rfl, rfl, rfl, rfl⟩ := h1
        have h3 := ih ys ca fa os cb fb eb o2 c2 f2 e2 hbx h2
        rw [List.cons_append, FileOrganizer.process_batch]
        simp [hpf, h3]

/-- The degraded placeholder never carries a `suggested_filename` key, so the
rename stage skips it. -/
theorem degraded_no_suggestion (env : AnalyzeEnv) (f : File) (fh mime e : String) :
    getKey (degradedResult env f fh mime e) "suggested_filename" = none := rfl

/-- On a clean cache miss with a failing backend, the whole per-file pipeline
still completes: outcome successful, degraded analysis attached, cache and
path set untouched. -/
theorem process_file_degraded (H : List Nat → String) (env : AnalyzeEnv) (cfg : Config)
    (approve : Bool) (cache : Option Store) (fs : List FPath) (f : File) (e : String)
    (hint : cfg.interactive = false)
    (hmiss : cacheMisses H env cache f)
    (hfail : env.backend f.path (mimeOf f) = .error e) :
    FileOrganizer.process_file H env cfg approve cache fs f
      = some ({ file := pathStr f.path, success := true
                metadata := some (degradedResult env f (SmartHash.calculate H f) (mimeOf f) e)
                renamed_to := none, error := none }, cache, fs,
              (if cfg.embed_metadata ∧ ¬cfg.dry_run then [Effect.embedded f.path] else [])
              ++ (if cfg.create_json_sidecar ∧ ¬cfg.dry_run then [Effect.sidecar f.path] else [])) := by
  have hana := analyze_backend_error H env cache f e hmiss hfail
  have hrs := renameStage_no_suggestion cfg fs f.path _
    (degraded_no_suggestion env f (SmartHash.calculate H f) (mimeOf f) e)
  have h := process_file_ok H env cfg approve cache fs f _ cache none f.path fs [] hana
    (by simp [hint]) hrs
  simpa using h

/-- Under `dry_run` no branch of the per-file pipeline touches the path set
or produces a filesystem effect. -/
theorem process_file_dry_frame (H : List Nat → String) (env : AnalyzeEnv) (cfg : Config)
    (approve : Bool) (hdry : cfg.dry_run = true) :
    ∀ (cache : Option Store) (fs : List FPath) (f : File) (o : Outcome)
      (c' : Option Store) (fs' : List FPath) (effs : List Effect),
      FileOrganizer.process_file H env cfg approve cache fs f = some (o, c', fs', effs) →
      fs' = fs ∧ effs = [] := by
  intro cache fs f o c' fs' effs h
  cases hana : AIAnalyzer.analyze H env cache f with
  | error e =>
    rw [process_file_error H env cfg approve cache fs f e hana] at h
    cases h
    exact ⟨rfl, rfl⟩
  | ok pr =>
    obtain ⟨md, c1⟩ := pr
    by_cases hint : cfg.interactive ∧ ¬approve
    · rw [process_file_skip H env cfg approve cache fs f md c1 hana hint] at h
      cases h
      exact ⟨rfl, rfl⟩
    · cases hrs : renameStage cfg fs f.path md with
      | none =>
        have := renameStage_isSome cfg fs f.path md
        rw [hrs] at this
        cases this
      | some r =>
        cases r with
        | error e =>
          rw [process_file_rserr H env cfg approve cache fs f md c1 e hana hint hrs] at h
          cases h
          exact ⟨rfl, rfl⟩
        | ok tup =>
          obtain ⟨rt, fp', fs2, effs2⟩ := tup
          rw [process_file_ok H env cfg approve cache fs f md c1 rt fp' fs2 effs2
            hana hint hrs] at h
          have hfr := renameStage_dry cfg fs f.path md hdry rt fp' fs2 effs2 hrs
          rw [hdry] at h
          simp at h
          obtain ⟨-, -, h3, h4⟩ := h
          exact ⟨h3 ▸ hfr.1, by rw [← h4, hfr.2]⟩

/-! ## Claim theorems -/

/-- C1: for every file whose fingerprinting succeeds but whose backend
analysis raises, `AIAnalyzer.analyze` returns (instead of raising) a degraded
result whose category is `"other"`, whose title is the file's name stem,
whose description contains the error cause, and whose tag set is empty.  The
fingerprinting step is total in the model; the backend is reached after a
clean cache miss. -/
theorem analyze_degraded_on_backend_failure (H : List Nat → String) (env : AnalyzeEnv)
    (cache : Option Store) (f : File) (e : String)
    (hmiss : cacheMisses H env cache f)
    (hfail : env.backend f.path (mimeOf f) = .error e) :
    ∃ d, AIAnalyzer.analyze H env cache f = .ok (d, cache)
      ∧ getKey d "category" = some (.s "other")
      ∧ getKey d "title" = some (.s f.path.stem)
      ∧ getKey d "description" = some (.s ("Error analyzing file: " ++ e))
      ∧ getKey d "tags" = some (.l []) :=
  ⟨degradedResult env f (SmartHash.calculate H f) (mimeOf f) e,
   analyze_backend_error H env cache f e hmiss hfail, rfl, rfl, rfl, rfl⟩

theorem analyze_degraded_on_backend_failure_witness :
    (∀ st, (some ([] : Store)) = some st →
      AnalysisCache.get st
        (SmartHash.calculate (fun _ => "fp") ⟨⟨"d", "doc", ".txt"⟩, [1, 2, 3], 5, some "text/plain"⟩)
        (AnalyzeEnv.mk (fun _ _ => .error "boom") "m" 0).modelName = .ok none)
    ∧ ((AnalyzeEnv.mk (fun _ _ => .error "boom") "m" 0).backend
        (FPath.mk "d" "doc" ".txt")
        (mimeOf ⟨⟨"d", "doc", ".txt"⟩, [1, 2, 3], 5, some "text/plain"⟩) = .error "boom")
    ∧ ∃ d, AIAnalyzer.analyze (fun _ => "fp") (AnalyzeEnv.mk (fun _ _ => .error "boom") "m" 0)
          (some []) ⟨⟨"d", "doc", ".txt"⟩, [1, 2, 3], 5, some "text/plain"⟩ = .ok (d, some [])
        ∧ getKey d "category" = some (.s "other")
        ∧ getKey d "title" = some (.s "doc")
        ∧ getKey d "description" = some (.s ("Error analyzing file: " ++ "boom"))
        ∧ getKey d "tags" = some (.l []) :=
  ⟨fun st hst => by cases hst; rfl, rfl,
   analyze_degraded_on_backend_failure (fun _ => "fp")
     (AnalyzeEnv.mk (fun _ _ => .error "boom") "m" 0) (some [])
     ⟨⟨"d", "doc", ".txt"⟩, [1, 2, 3], 5, some "text/plain"⟩ "boom"
     (fun st hst => by cases hst; rfl) rfl⟩

/-- C2: a backend failure for file X still yields a `success = true` outcome
carrying the degraded result (part 1); an exception escaping any point of one
file's pipeline (here: a corrupt cache payload raising out of `analyze`)
yields a failed outcome for that file only, and the batch still processes
every sibling, composing exactly their own pipeline results (part 2); the
backend-degraded file likewise leaves its siblings' outcomes untouched
(part 3). -/
theorem process_batch_fault_isolation (H : List Nat → String) (env : AnalyzeEnv)
    (cfg : Config) (approve : Bool) :
    (∀ (cache : Option Store) (fs : List FPath) (f : File) (e : String),
       cfg.interactive = false → cacheMisses H env cache f →
       env.backend f.path (mimeOf f) = .error e →
       ∃ effs, FileOrganizer.process_file H env cfg approve cache fs f
         = some ({ file := pathStr f.path, success := true
                   metadata := some (degradedResult env f (SmartHash.calculate H f) (mimeOf f) e)
                   renamed_to := none, error := none }, cache, fs, effs))
    ∧ (∀ (pre post : List File) (f : File) (cache : Option Store) (fs : List FPath)
        (e : String) (o1 : List Outcome) (c1 : Option Store) (f1 : List FPath)
        (e1 : List Effect) (o2 : List Outcome) (c2 : Option Store) (f2 : List FPath)
        (e2 : List Effect),
        FileOrganizer.process_batch H env cfg approve cache fs pre = some (o1, c1, f1, e1) →
        AIAnalyzer.analyze H env c1 f = .error e →
        FileOrganizer.process_batch H env cfg approve c1 f1 post = some (o2, c2, f2, e2) →
        FileOrganizer.process_batch H env cfg approve cache fs (pre ++ f :: post)
          = some (o1 ++ ({ file := pathStr f.path, success := false, metadata := none
                           renamed_to := none, error := some e } :: o2), c2, f2, e1 ++ e2))
    ∧ (∀ (pre post : List File) (f : File) (cache : Option Store) (fs : List FPath)
        (e : String) (o1 : List Outcome) (c1 : Option Store) (f1 : List FPath)
        (e1 : List Effect) (o2 : List Outcome) (c2 : Option Store) (f2 : List FPath)
        (e2 : List Effect),
        cfg.interactive = false →
        FileOrganizer.process_batch H env cfg approve cache fs pre = some (o1, c1, f1, e1) →
        cacheMisses H env c1 f →
        env.backend f.path (mimeOf f) = .error e →
        FileOrganizer.process_batch H env cfg approve c1 f1 post = some (o2, c2, f2, e2) →
        ∃ effsF, FileOrganizer.process_batch H env cfg approve cache fs (pre ++ f :: post)
          = some (o1 ++ ({ file := pathStr f.path, success := true
                           metadata := some (degradedResult env f (SmartHash.calculate H f) (mimeOf f) e)
                           renamed_to := none, error := none } :: o2), c2, f2,
                  e1 ++ (effsF ++ e2))) := by
  refine ⟨?_, ?_, ?_⟩
  · intro cache fs f e hint hmiss hfail
    exact ⟨_, process_file_degraded H env cfg approve cache fs f e hint hmiss hfail⟩
  · intro pre post f cache fs e o1 c1 f1 e1 o2 c2 f2 e2 hpre hana hpost
    have hf := process_file_error H env cfg approve c1 f1 f e hana
    have hmid : FileOrganizer.process_batch H env cfg approve c1 f1 (f :: post)
        = some (({ file := pathStr f.path, success := false, metadata := none
                   renamed_to := none, error := some e } : Outcome) :: o2, c2, f2, e2) := by
      rw [FileOrganizer.process_batch]
      simp [hf, hpost]
    have := process_batch_append H env cfg approve pre (f :: post) cache fs
      o1 c1 f1 e1 _ c2 f2 e2 hpre hmid
    exact this
  · intro pre post f cache fs e o1 c1 f1 e1 o2 c2 f2 e2 hint hpre hmiss hfail hpost
    have hf := process_file_degraded H env cfg approve c1 f1 f e hint hmiss hfail
    refine ⟨(if cfg.embed_metadata ∧ ¬cfg.dry_run then [Effect.embedded f.path] else [])
        ++ (if cfg.create_json_sidecar ∧ ¬cfg.dry_run then [Effect.sidecar f.path] else []), ?_⟩
    have hmid : FileOrganizer.process_batch H env cfg approve c1 f1 (f :: post)
        = some (({ file := pathStr f.path, success := true
                   metadata := some (degradedResult env f (SmartHash.calculate H f) (mimeOf f) e)
                   renamed_to := none, error := none } : Outcome) :: o2, c2, f2,
                ((if cfg.embed_metadata ∧ ¬cfg.dry_run then [Effect.embedded f.path] else [])
                 ++ (if cfg.create_json_sidecar ∧ ¬cfg.dry_run then [Effect.sidecar f.path] else []))
                ++ e2) := by
      rw [FileOrganizer.process_batch]
      simp [hf, hpost]
    have := process_batch_append H env cfg approve pre (f :: post) cache fs
      o1 c1 f1 e1 _ c2 f2 _ hpre hmid
    simpa [List.append_assoc] using this

theorem process_batch_fault_isolation_witness :
    (AIAnalyzer.analyze (fun _ => "fp") (AnalyzeEnv.mk (fun _ _ => .error "boom") "m" 0)
        (some [⟨"fp", "m", "not json", 0⟩]) ⟨⟨"d", "doc", ".txt"⟩, [1, 2, 3], 5, some "text/plain"⟩
      = .error ("JSONDecodeError: " ++ "not json"))
    ∧ FileOrganizer.process_batch (fun _ => "fp") (AnalyzeEnv.mk (fun _ _ => .error "boom") "m" 0)
        (Config.mk 4 1 true true true false false) true (some [⟨"fp", "m", "not json", 0⟩]) []
        [⟨⟨"d", "doc", ".txt"⟩, [1, 2, 3], 5, some "text/plain"⟩]
      = some ([{ file := pathStr ⟨"d", "doc", ".txt"⟩, success := false, metadata := none
                 renamed_to := none, error := some ("JSONDecodeError: " ++ "not json") }],
              some [⟨"fp", "m", "not json", 0⟩], [], []) := by
  constructor
  · rfl
  · have := (process_batch_fault_isolation (fun _ => "fp")
      (AnalyzeEnv.mk (fun _ _ => .error "boom") "m" 0)
      (Config.mk 4 1 true true true false false) true).2.1
      [] [] ⟨⟨"d", "doc", ".txt"⟩, [1, 2, 3], 5, some "text/plain"⟩
      (some [⟨"fp", "m", "not json", 0⟩]) [] ("JSONDecodeError: " ++ "not json")
      [] (some [⟨"fp", "m", "not json", 0⟩]) [] [] [] (some [⟨"fp", "m", "not json", 0⟩]) [] []
      rfl rfl rfl
    simpa using this

/-- C3: for every input list of N paths, `process_batch` returns exactly N
outcomes, one per input path (the outcome list reports exactly the submitted
paths), regardless of which per-file pipelines fail.  The worker count and
the rate-limit delay only schedule the pool, so they do not appear in the
sequential model; ordering is modelled as submission order, one admissible
completion order. -/
theorem process_batch_completeness (H : List Nat → String) (env : AnalyzeEnv)
    (cfg : Config) (approve : Bool) (files : List File) (cache : Option Store)
    (fs : List FPath) :
    ∃ outs cache' fs' effs,
      FileOrganizer.process_batch H env cfg approve cache fs files
        = some (outs, cache', fs', effs)
      ∧ outs.length = files.length
      ∧ outs.map (fun o => o.file) = files.map (fun f => pathStr f.path) := by
  obtain ⟨outs, c', fs', effs, hb, hmap⟩ := process_batch_spec H env cfg approve files cache fs
  refine ⟨outs, c', fs', effs, hb, ?_, hmap⟩
  have := congrArg List.length hmap
  simpa using this

/-- C4 counterexample: a stored payload that is not valid JSON makes
`AnalysisCache.get` raise (`json.loads` is wrapped in no handler), instead of
degrading to a cache miss. -/
theorem cache_get_corrupt_raises :
    AnalysisCache.get [⟨"h", "m", "not json", 0⟩] "h" "m"
      = .error ("JSONDecodeError: " ++ "not json") := rfl

/-- C4 as amended: `get` returns absent on a missing key and the parsed
payload on a well-formed entry, but a corrupt stored payload propagates the
decode error to the caller rather than degrading to a miss. -/
theorem cache_get_behavior :
    (∀ (st : Store) (h m : String), findRow st h m = none →
       AnalysisCache.get st h m = .ok none)
    ∧ (∀ (st : Store) (h m : String) (r : CacheRow) (p : Payload),
        findRow st h m = some r → loads r.analysis = some p →
        AnalysisCache.get st h m = .ok (some p))
    ∧ (∀ (st : Store) (h m : String) (r : CacheRow),
        findRow st h m = some r → loads r.analysis = none →
        AnalysisCache.get st h m = .error ("JSONDecodeError: " ++ r.analysis)) := by
  refine ⟨?_, ?_, ?_⟩
  · intro st h m hfind
    simp [AnalysisCache.get, hfind]
  · intro st h m r p hfind hload
    simp [AnalysisCache.get, hfind, hload]
  · intro st h m r hfind hload
    simp [AnalysisCache.get, hfind, hload]

theorem cache_get_behavior_witness :
    (findRow ([] : Store) "h" "m" = none ∧ AnalysisCache.get [] "h" "m" = .ok none)
    ∧ (findRow [⟨"h", "m", "not json", 0⟩] "h" "m" = some ⟨"h", "m", "not json", 0⟩
       ∧ loads "not json" = none
       ∧ AnalysisCache.get [⟨"h", "m", "not json", 0⟩] "h" "m"
           = .error ("JSONDecodeError: " ++ "not json")) :=
  ⟨⟨rfl, cache_get_behavior.1 [] "h" "m" rfl⟩,
   ⟨rfl, rfl, cache_get_behavior.2.2 [⟨"h", "m", "not json", 0⟩] "h" "m"
     ⟨"h", "m", "not json", 0⟩ rfl rfl⟩⟩

/-- C5 counterexample: a whitespace-only suggestion sanitizes to the empty
stem, yet `safe_rename` does not return `none` — the emptiness check runs on
the raw suggestion before sanitization, so the file is renamed to a
bare-extension name. -/
theorem safe_rename_empty_stem_renames :
    sanitize " " = ""
    ∧ FileOrganizer.safe_rename [⟨"d", "report", ".txt"⟩] false ⟨"d", "report", ".txt"⟩ " "
      = some (some ⟨"d", "", ".txt"⟩, [⟨"d", "", ".txt"⟩],
              [.renamed ⟨"d", "report", ".txt"⟩ ⟨"d", "", ".txt"⟩]) := by
  constructor
  · rfl
  · rfl

/-- C5 as amended: `safe_rename` sanitizes the suggested stem by replacing
reserved characters with `'_'` and trimming whitespace, and any rename it
performs keeps the directory and extension and uses the sanitized stem (with
an optional collision counter); but it returns `none` with no rename only
when the raw suggestion is empty — a suggestion that sanitizes to the empty
stem is not rejected. -/
theorem safe_rename_sanitization :
    (∀ (fs : List FPath) (dry : Bool) (fp : FPath),
       FileOrganizer.safe_rename fs dry fp "" = some (none, fs, []))
    ∧ (∀ (fs : List FPath) (dry : Bool) (fp : FPath) (sugg : String) (np : FPath)
        (fs' : List FPath) (effs : List Effect),
        FileOrganizer.safe_rename fs dry fp sugg = some (some np, fs', effs) →
        np.dir = fp.dir ∧ np.ext = fp.ext
          ∧ (np.stem = sanitize sugg
             ∨ ∃ k, np.stem = sanitize sugg ++ "_" ++ decRepr k)) := by
  constructor
  · intro fs dry fp
    exact safe_rename_empty fs dry fp
  · intro fs dry fp sugg np fs' effs h
    by_cases hs : sugg = ""
    · rw [hs, safe_rename_empty] at h
      simp at h
    · cases hloop : renameLoop fs fp (sanitize sugg) (fs.length + 1)
          (mkCand fp (sanitize sugg)) 1 with
      | none => exact absurd hloop (renameLoop_total fs fp (sanitize sugg))
      | some np0 =>
        rw [safe_rename_of_loop fs dry fp sugg np0 hs hloop] at h
        by_cases h1 : np0 = fp
        · rw [if_pos h1] at h
          simp at h
        · rw [if_neg h1] at h
          have hnp : np = np0 := by
            cases dry <;> simp at h <;> exact h.1.symm
          subst hnp
          rcases renameLoop_some_shape fs fp (sanitize sugg) _ _ _ _ hloop with h2 | ⟨j, h2⟩
          · subst h2
            exact ⟨rfl, rfl, Or.inl rfl⟩
          · subst h2
            exact ⟨rfl, rfl, Or.inr ⟨j, rfl⟩⟩

theorem safe_rename_sanitization_witness :
    (FileOrganizer.safe_rename [⟨"d", "report", ".txt"⟩] false ⟨"d", "report", ".txt"⟩ ""
       = some (none, [⟨"d", "report", ".txt"⟩], []))
    ∧ (FileOrganizer.safe_rename [⟨"d", "report", ".txt"⟩, ⟨"d", "draft", ".txt"⟩] false
         ⟨"d", "draft", ".txt"⟩ "report"
       = some (some ⟨"d", "report_1", ".txt"⟩,
               [⟨"d", "report_1", ".txt"⟩, ⟨"d", "report", ".txt"⟩],
               [.renamed ⟨"d", "draft", ".txt"⟩ ⟨"d", "report_1", ".txt"⟩])
      ∧ ((⟨"d", "report_1", ".txt"⟩ : FPath).dir = (⟨"d", "draft", ".txt"⟩ : FPath).dir
         ∧ (⟨"d", "report_1", ".txt"⟩ : FPath).ext = (⟨"d", "draft", ".txt"⟩ : FPath).ext
         ∧ ((⟨"d", "report_1", ".txt"⟩ : FPath).stem = sanitize "report"
            ∨ ∃ k, (⟨"d", "report_1", ".txt"⟩ : FPath).stem
                = sanitize "report" ++ "_" ++ decRepr k))) :=
  ⟨safe_rename_sanitization.1 [⟨"d", "report", ".txt"⟩] false ⟨"d", "report", ".txt"⟩,
   rfl,
   safe_rename_sanitization.2 [⟨"d", "report", ".txt"⟩, ⟨"d", "draft", ".txt"⟩] false
     ⟨"d", "draft", ".txt"⟩ "report" ⟨"d", "report_1", ".txt"⟩
     [⟨"d", "report_1", ".txt"⟩, ⟨"d", "report", ".txt"⟩]
     [.renamed ⟨"d", "draft", ".txt"⟩ ⟨"d", "report_1", ".txt"⟩] rfl⟩

/-- C6: a `set` followed by a `get` on the same `(fingerprint, model)` key
returns a payload equal to the one stored (through the `json.dumps` /
`json.loads` round trip); a `get` on a key never touched by any `set` since
the store was created returns absent. -/
theorem cache_roundtrip :
    (∀ (st : Store) (h m : String) (p : Payload) (now : Nat),
       AnalysisCache.get (AnalysisCache.set st h m p now) h m = .ok (some p))
    ∧ (∀ (ops : List SetOp) (h m : String),
        (∀ op ∈ ops, ¬(op.fileHash = h ∧ op.model = m)) →
        AnalysisCache.get (applySets [] ops) h m = .ok none) := by
  constructor
  · exact get_set_same
  · intro ops h m hops
    have hnm := applySets_no_match h m ops [] hops (by simp)
    unfold AnalysisCache.get
    rw [findRow_eq_none _ _ _ hnm]

theorem cache_roundtrip_witness :
    (AnalysisCache.get
        (AnalysisCache.set [] "fp" "m" [("title", .s "T"), ("tags", .l ["a", "b"])] 3)
        "fp" "m"
      = .ok (some [("title", .s "T"), ("tags", .l ["a", "b"])]))
    ∧ ((∀ op ∈ [SetOp.mk "fp" "m" [("title", .s "T")] 3], ¬(op.fileHash = "x" ∧ op.model = "m"))
       ∧ AnalysisCache.get (applySets [] [SetOp.mk "fp" "m" [("title", .s "T")] 3]) "x" "m"
           = .ok none) :=
  ⟨cache_roundtrip.1 [] "fp" "m" [("title", .s "T"), ("tags", .l ["a", "b"])] 3,
   by decide,
   cache_roundtrip.2 [SetOp.mk "fp" "m" [("title", .s "T")] 3] "x" "m" (by decide)⟩

/-- C7: with `dry_run = true` the per-file pipeline performs no filesystem
mutation (no rename, no metadata embed, no sidecar write: the path set is
returned unchanged and the effect trace is empty), while `safe_rename` still
reports the same computed destination as a live run would. -/
theorem dry_run_frame (H : List Nat → String) (env : AnalyzeEnv) (cfg : Config)
    (approve : Bool) (hdry : cfg.dry_run = true) :
    (∀ (cache : Option Store) (fs : List FPath) (f : File) (o : Outcome)
       (c' : Option Store) (fs' : List FPath) (effs : List Effect),
       FileOrganizer.process_file H env cfg approve cache fs f = some (o, c', fs', effs) →
       fs' = fs ∧ effs = [])
    ∧ (∀ (fs : List FPath) (fp : FPath) (sugg : String),
       (FileOrganizer.safe_rename fs true fp sugg).map (fun r => r.1)
         = (FileOrganizer.safe_rename fs false fp sugg).map (fun r => r.1)) :=
  ⟨process_file_dry_frame H env cfg approve hdry,
   fun fs fp sugg => safe_rename_dry_same_dest fs fp sugg⟩

theorem dry_run_frame_witness :
    ((Config.mk 4 1 true true true true false).dry_run = true)
    ∧ ((FileOrganizer.safe_rename [⟨"d", "report", ".txt"⟩] true ⟨"d", "draft", ".txt"⟩ "report").map
          (fun r => r.1)
        = (FileOrganizer.safe_rename [⟨"d", "report", ".txt"⟩] false ⟨"d", "draft", ".txt"⟩ "report").map
          (fun r => r.1)) :=
  ⟨rfl,
   (dry_run_frame (fun _ => "fp") (AnalyzeEnv.mk (fun _ _ => .error "boom") "m" 0)
     (Config.mk 4 1 true true true true false) true rfl).2
     [⟨"d", "report", ".txt"⟩] ⟨"d", "draft", ".txt"⟩ "report"⟩

/-- C8: collision policy of `safe_rename`.  With `report.txt` existing, a
second file suggested `report` resolves to `report_1.txt` and a third to
`report_2.txt`, extensions preserved; a suggestion whose sanitized stem
equals the current stem resolves to `none` with no rename and no error; and
any rename that is performed lands on a currently free name. -/
theorem safe_rename_collision_policy :
    (FileOrganizer.safe_rename
        [⟨"d", "report", ".txt"⟩, ⟨"d", "draft", ".txt"⟩] false ⟨"d", "draft", ".txt"⟩ "report"
      = some (some ⟨"d", "report_1", ".txt"⟩,
              [⟨"d", "report_1", ".txt"⟩, ⟨"d", "report", ".txt"⟩],
              [.renamed ⟨"d", "draft", ".txt"⟩ ⟨"d", "report_1", ".txt"⟩]))
    ∧ (FileOrganizer.safe_rename
        [⟨"d", "report", ".txt"⟩, ⟨"d", "report_1", ".txt"⟩, ⟨"d", "third", ".txt"⟩] false
          ⟨"d", "third", ".txt"⟩ "report"
      = some (some ⟨"d", "report_2", ".txt"⟩,
              [⟨"d", "report_2", ".txt"⟩, ⟨"d", "report", ".txt"⟩, ⟨"d", "report_1", ".txt"⟩],
              [.renamed ⟨"d", "third", ".txt"⟩ ⟨"d", "report_2", ".txt"⟩]))
    ∧ (∀ (fs : List FPath) (dry : Bool) (fp : FPath) (sugg : String),
        sugg ≠ "" → sanitize sugg = fp.stem →
        FileOrganizer.safe_rename fs dry fp sugg = some (none, fs, []))
    ∧ (∀ (fs : List FPath) (dry : Bool) (fp : FPath) (sugg : String) (np : FPath)
        (fs' : List FPath) (effs : List Effect),
        FileOrganizer.safe_rename fs dry fp sugg = some (some np, fs', effs) →
        np ∉ fs ∧ np.ext = fp.ext) := by
  refine ⟨rfl, rfl, ?_, ?_⟩
  · intro fs dry fp sugg hs hsan
    have hcand : mkCand fp (sanitize sugg) = fp := by
      rw [hsan]
      rfl
    have hloop : renameLoop fs fp (sanitize sugg) (fs.length + 1)
        (mkCand fp (sanitize sugg)) 1 = some fp := by
      rw [hcand, renameLoop, if_neg]
      simp
    rw [safe_rename_of_loop fs dry fp sugg fp hs hloop, if_pos rfl]
  · intro fs dry fp sugg np fs' effs h
    by_cases hs : sugg = ""
    · rw [hs, safe_rename_empty] at h
      simp at h
    · cases hloop : renameLoop fs fp (sanitize sugg) (fs.length + 1)
          (mkCand fp (sanitize sugg)) 1 with
      | none => exact absurd hloop (renameLoop_total fs fp (sanitize sugg))
      | some np0 =>
        rw [safe_rename_of_loop fs dry fp sugg np0 hs hloop] at h
        by_cases h1 : np0 = fp
        · rw [if_pos h1] at h
          simp at h
        · rw [if_neg h1] at h
          have hnp : np = np0 := by
            cases dry <;> simp at h <;> exact h.1.symm
          subst hnp
          refine ⟨?_, ?_⟩
          · rcases renameLoop_some_free fs fp (sanitize sugg) _ _ _ _ hloop with h2 | h2
            · exact h2
            · exact absurd h2 h1
          · rcases renameLoop_some_shape fs fp (sanitize sugg) _ _ _ _ hloop with h2 | ⟨j, h2⟩
            · subst h2
              rfl
            · subst h2
              rfl

theorem safe_rename_collision_policy_witness :
    ("report" ≠ "" ∧ sanitize "report" = (FPath.mk "d" "report" ".txt").stem
     ∧ FileOrganizer.safe_rename [⟨"d", "report", ".txt"⟩] false ⟨"d", "report", ".txt"⟩ "report"
         = some (none, [⟨"d", "report", ".txt"⟩], []))
    ∧ ((⟨"d", "report_1", ".txt"⟩ : FPath) ∉
         [(⟨"d", "report", ".txt"⟩ : FPath), ⟨"d", "draft", ".txt"⟩]
       ∧ (⟨"d", "report_1", ".txt"⟩ : FPath).ext = (⟨"d", "draft", ".txt"⟩ : FPath).ext) :=
  ⟨⟨by decide, rfl,
    safe_rename_collision_policy.2.2.1 [⟨"d", "report", ".txt"⟩] false
      ⟨"d", "report", ".txt"⟩ "report" (by decide) rfl⟩,
   safe_rename_collision_policy.2.2.2 [⟨"d", "report", ".txt"⟩, ⟨"d", "draft", ".txt"⟩] false
     ⟨"d", "draft", ".txt"⟩ "report" ⟨"d", "report_1", ".txt"⟩
     [⟨"d", "report_1", ".txt"⟩, ⟨"d", "report", ".txt"⟩]
     [.renamed ⟨"d", "draft", ".txt"⟩ ⟨"d", "report_1", ".txt"⟩]
     safe_rename_collision_policy.1⟩

/-- C9: `SmartHash.calculate` digests exactly the concatenation of
`name|size|mtime`, the first `chunkSize` content bytes, and — exactly when
`size > 2*chunkSize` — the last `chunkSize` bytes; hence two files agreeing
on name, size, mtime and those head/tail windows always fingerprint equal,
even when the bytes between the windows differ. -/
theorem smart_hash_fingerprint (α : Type) :
    (∀ (H : List Nat → α) (f : File) (c : Nat),
       SmartHash.calculate H f c = fingerprintSpec H f c)
    ∧ (∀ (H : List Nat → α) (f1 f2 : File) (c : Nat),
        f1.path.name = f2.path.name →
        f1.content.length = f2.content.length →
        f1.mtime = f2.mtime →
        f1.content.take c = f2.content.take c →
        f1.content.rtake c = f2.content.rtake c →
        SmartHash.calculate H f1 c = SmartHash.calculate H f2 c) := by
  constructor
  · intro H f c
    simp [SmartHash.calculate, fingerprintSpec, List.rtake, Nat.mul_comm]
  · intro H f1 f2 c h1 h2 h3 h4 h5
    have hm : f1.path.name ++ "|" ++ toString f1.content.length ++ "|" ++ toString f1.mtime
        = f2.path.name ++ "|" ++ toString f2.content.length ++ "|" ++ toString f2.mtime := by
      rw [h1, h2, h3]
    simp only [SmartHash.calculate]
    rw [List.rtake, List.rtake] at h5
    congr 1
    rw [hm, h4, h2]
    rw [h2] at h5
    rw [h5]

theorem smart_hash_fingerprint_witness :
    ((⟨⟨"d", "a", ".bin"⟩, [0, 5, 9], 7, none⟩ : File).path.name
       = (⟨⟨"d", "a", ".bin"⟩, [0, 7, 9], 7, none⟩ : File).path.name)
    ∧ ([0, 5, 9] : List Nat).length = ([0, 7, 9] : List Nat).length
    ∧ ([0, 5, 9] : List Nat).take 1 = ([0, 7, 9] : List Nat).take 1
    ∧ ([0, 5, 9] : List Nat).rtake 1 = ([0, 7, 9] : List Nat).rtake 1
    ∧ SmartHash.calculate (fun l => l) ⟨⟨"d", "a", ".bin"⟩, [0, 5, 9], 7, none⟩ 1
        = SmartHash.calculate (fun l => l) ⟨⟨"d", "a", ".bin"⟩, [0, 7, 9], 7, none⟩ 1
    ∧ ([0, 5, 9] : List Nat) ≠ [0, 7, 9] :=
  ⟨rfl, rfl, by decide, by decide,
   (smart_hash_fingerprint (List Nat)).2 (fun l => l)
     ⟨⟨"d", "a", ".bin"⟩, [0, 5, 9], 7, none⟩ ⟨⟨"d", "a", ".bin"⟩, [0, 7, 9], 7, none⟩ 1
     rfl rfl rfl (by decide) (by decide),
   by decide⟩

/-- C10: when the backend raises and `analyze` substitutes the degraded
result, the returned store is exactly the one passed in — no entry is stored
for the `(fingerprint, model)` key (the `cache.set` call sits inside the
`try`, after the backend call), so a later call for the same file misses the
cache again and re-invokes the analyzer instead of serving the placeholder. -/
theorem degraded_result_never_cached (H : List Nat → String) (env : AnalyzeEnv)
    (cache : Option Store) (f : File) (e : String)
    (hmiss : cacheMisses H env cache f)
    (hfail : env.backend f.path (mimeOf f) = .error e) :
    AIAnalyzer.analyze H env cache f
      = .ok (degradedResult env f (SmartHash.calculate H f) (mimeOf f) e, cache) :=
  analyze_backend_error H env cache f e hmiss hfail

theorem degraded_result_never_cached_witness :
    (∀ st, (some [⟨"x", "m", "t", 1⟩] : Option Store) = some st →
       AnalysisCache.get st
         (SmartHash.calculate (fun _ => "fp") ⟨⟨"d", "doc", ".txt"⟩, [1, 2, 3], 5, some "text/plain"⟩)
         (AnalyzeEnv.mk (fun _ _ => .error "boom") "m" 0).modelName = .ok none)
    ∧ AIAnalyzer.analyze (fun _ => "fp") (AnalyzeEnv.mk (fun _ _ => .error "boom") "m" 0)
        (some [⟨"x", "m", "t", 1⟩]) ⟨⟨"d", "doc", ".txt"⟩, [1, 2, 3], 5, some "text/plain"⟩
      = .ok (degradedResult (AnalyzeEnv.mk (fun _ _ => .error "boom") "m" 0)
               ⟨⟨"d", "doc", ".txt"⟩, [1, 2, 3], 5, some "text/plain"⟩
               (SmartHash.calculate (fun _ => "fp")
                 ⟨⟨"d", "doc", ".txt"⟩, [1, 2, 3], 5, some "text/plain"⟩)
               (mimeOf ⟨⟨"d", "doc", ".txt"⟩, [1, 2, 3], 5, some "text/plain"⟩) "boom",
             some [⟨"x", "m", "t", 1⟩]) :=
  ⟨fun st hst => by cases hst; rfl,
   degraded_result_never_cached (fun _ => "fp") (AnalyzeEnv.mk (fun _ _ => .error "boom") "m" 0)
     (some [⟨"x", "m", "t", 1⟩]) ⟨⟨"d", "doc", ".txt"⟩, [1, 2, 3], 5, some "text/plain"⟩ "boom"
     (fun st hst => by cases hst; rfl) rfl⟩
